import Mathlib

/-!
Shallow embedding of the BitSet.js bit-vector engine.

The repository ships only the public type declarations (`src/bitset.d.ts`);
the behaviour of each operation is therefore modelled from the
specification, faithful to its words (word width `W`, `tail` flag for the
implicit value of all positions beyond the stored words, canonical-form
trimming, tail-extension algebra, codec layer).  The declaration file
itself is additionally embedded as a table of method signatures, since it
is the authoritative source for the public API surface.
-/

namespace BitSetModel


/-- Word width: fixed, a power of two (the reference implementation uses 32). -/
def W : Nat := 32

/-- The all-ones word pattern (`W` low bits set). -/
def allOnes : Nat := 2 ^ W - 1

/-- Modelled from the spec: the BitSet data model (§3) — an ordered sequence
of fixed-width unsigned words, word `k` holding logical bits
`[k·W, (k+1)·W)`, plus a `tail` flag giving the logical value of every bit
at index `≥ words.length · W` (`true` = ONE = indefinite/co-finite set). -/
structure BitSet where
  words : List Nat
  tail : Bool
deriving DecidableEq, Repr

/-- The all-`tail` word pattern: all one bits if tail=ONE, all zero bits if tail=ZERO. -/
def tailWord (t : Bool) : Nat := if t then allOnes else 0

/-- Modelled from the spec: `wordOrTail(k)` returns `words[k]` if present,
else the all-`tail` pattern (§4.1). -/
def wordOrTail (a : BitSet) (k : Nat) : Nat := a.words.getD k (tailWord a.tail)

/-- The logical bit at index `i` (§3): bit `i mod W` of `words[i div W]`
when the word is present, else the tail value (as a `Bool`). -/
def logicalBit (a : BitSet) (i : Nat) : Bool := (wordOrTail a (i / W)).testBit (i % W)

/-- Canonical form (§3): the highest-index word, if present, is not the
all-`tail` pattern.  (Vacuously true for the empty word sequence.) -/
def Canonical (a : BitSet) : Prop := a.words.getLast? ≠ some (tailWord a.tail)

/-- Every stored word fits in `W` bits. -/
def Valid (a : BitSet) : Prop := ∀ w ∈ a.words, w < 2 ^ W

instance (a : BitSet) : Decidable (Canonical a) := by
  unfold Canonical
  infer_instance

instance (a : BitSet) : Decidable (Valid a) := by
  unfold Valid
  infer_instance

/-- The canonical empty set: empty word sequence, tail ZERO. -/
def empty : BitSet := ⟨[], false⟩

/-- Drop the leading elements equal to `t` (used on the reversed word list). -/
def trimTail (t : Nat) : List Nat → List Nat
  | [] => []
  | w :: ws => if w = t then trimTail t ws else w :: ws

/-- Trim trailing words equal to the all-`tail` pattern. -/
def canonicalizeWords (t : Nat) (ws : List Nat) : List Nat :=
  (trimTail t ws.reverse).reverse

/-- Modelled from the spec: `canonicalize()` trims trailing words equal to
the all-`tail` pattern (§4.1); run after every mutation or algebra result. -/
def canonicalize (a : BitSet) : BitSet :=
  ⟨canonicalizeWords (tailWord a.tail) a.words, a.tail⟩

/-- Assemble a word from its `n` low bits (bit `j` is `f j`). -/
def bitsToNat (f : Nat → Bool) : Nat → Nat
  | 0 => 0
  | n + 1 => (if f 0 then 1 else 0) + 2 * bitsToNat (fun j => f (j + 1)) n

/-- A full word assembled from a bit-valued function. -/
def wordFromBits (f : Nat → Bool) : Nat := bitsToNat f W

/-- Explicit length (in words) needed to cover both operands (§4.3). -/
def extLen (a b : BitSet) : Nat := max a.words.length b.words.length

/-- Modelled from the spec: a binary algebra operation (§4.3) — result tail
is `ft` of the operand tails, result words are computed up to
`max(lenA, lenB)` via `wordOrTail`, then canonicalized. -/
def binop (f : Nat → Nat → Nat) (ft : Bool → Bool → Bool) (a b : BitSet) : BitSet :=
  canonicalize ⟨(List.range (extLen a b)).map (fun k => f (wordOrTail a k) (wordOrTail b k)),
    ft a.tail b.tail⟩

/-- Complement of one word within `W` bits. -/
def notWord (w : Nat) : Nat := w ^^^ allOnes

namespace BitSet

/-- Modelled from the spec: bitwise AND (§4.3). -/
def and (a b : BitSet) : BitSet := binop Nat.land Bool.and a b

/-- Modelled from the spec: bitwise OR (§4.3). -/
def or (a b : BitSet) : BitSet := binop Nat.lor Bool.or a b

/-- Modelled from the spec: bitwise XOR (§4.3). -/
def xor (a b : BitSet) : BitSet := binop Nat.xor Bool.xor a b

/-- Modelled from the spec: bitwise AND-NOT (§4.3), `ANDNOT(a,b) = a ∧ ¬b`. -/
def andNot (a b : BitSet) : BitSet :=
  binop (fun x y => Nat.land x (notWord y)) (fun x y => x && !y) a b

/-- Modelled from the spec: bitwise NOT (§4.3) — complement every explicit
word, flip the tail, canonicalize. -/
def not (a : BitSet) : BitSet := canonicalize ⟨a.words.map notWord, !a.tail⟩

/-- Modelled from the spec: `clone()` — a copy owning its own word storage. -/
def clone (a : BitSet) : BitSet := ⟨a.words, a.tail⟩

/-- Modelled from the spec: `equals` (§3) — same tail and index-wise equal
explicit words after extending the shorter vector with its own tail. -/
def equals (a b : BitSet) : Bool :=
  (a.tail == b.tail) && ((List.range (extLen a b)).all fun k => wordOrTail a k == wordOrTail b k)

end BitSet

/-- Error kinds of the engine (§7). -/
inductive BError
  | ParseError
  | IndexError
  | UndefinedForIndefiniteSet
deriving DecidableEq, Repr

/-- Modelled from the spec: `ensureWordAt(k)` (§4.1) — grow the sequence
with tail-valued words up to index `k` if absent. -/
def ensureWords (a : BitSet) (k : Nat) : List Nat :=
  a.words ++ List.replicate (k + 1 - a.words.length) (tailWord a.tail)

namespace BitSet

/-- Modelled from the spec: single-index `set(i, v)` (§4.4) —
`ensureWordAt`, mutate the targeted bit in place, canonicalize. -/
def set (a : BitSet) (i : Nat) (v : Bool) : BitSet :=
  let ws := ensureWords a (i / W)
  let w := ws.getD (i / W) 0
  let w' := if v then w ||| (1 <<< (i % W)) else w &&& notWord (1 <<< (i % W))
  canonicalize ⟨ws.set (i / W) w', a.tail⟩

/-- Modelled from the spec: single-index `flip(i)` (§4.4) — XOR the
targeted bit with 1, canonicalize. -/
def flipBit (a : BitSet) (i : Nat) : BitSet :=
  let ws := ensureWords a (i / W)
  let w := ws.getD (i / W) 0
  canonicalize ⟨ws.set (i / W) (w ^^^ (1 <<< (i % W))), a.tail⟩

/-- Modelled from the spec: `setRange(from, to, v)` (§4.4) — apply `v`
across the half-open span `[from, to)` in one pass per word touched,
canonicalize. -/
def setRange (a : BitSet) (lo hi : Nat) (v : Bool) : BitSet :=
  let n := max a.words.length ((hi + W - 1) / W)
  canonicalize ⟨(List.range n).map fun k =>
    wordFromBits fun j =>
      if lo ≤ k * W + j ∧ k * W + j < hi then v else logicalBit a (k * W + j), a.tail⟩

/-- Modelled from the spec: ranged `flip(from, to)` (§4.4) — XOR each bit
of the span with 1, canonicalize. -/
def flipRange (a : BitSet) (lo hi : Nat) : BitSet :=
  let n := max a.words.length ((hi + W - 1) / W)
  canonicalize ⟨(List.range n).map fun k =>
    wordFromBits fun j =>
      Bool.xor (logicalBit a (k * W + j))
        (decide (lo ≤ k * W + j ∧ k * W + j < hi)), a.tail⟩

/-- Modelled from the spec: no-argument `flip()` (§4.4) — complement the
whole set, producing the opposite tail. -/
def flipAll (a : BitSet) : BitSet := canonicalize ⟨a.words.map notWord, !a.tail⟩

/-- Modelled from the spec: no-argument `clear()` (§4.4) — reset to the
canonical empty set (tail ZERO, no words). -/
def clearAll (_ : BitSet) : BitSet := empty

/-- Modelled from the spec: `clear(i)` is `set(i, 0)` (§4.4). -/
def clearBit (a : BitSet) (i : Nat) : BitSet := a.set i false

/-- Modelled from the spec: `clear(from, to)` is `setRange(from, to, 0)` (§4.4). -/
def clearRange (a : BitSet) (lo hi : Nat) : BitSet := a.setRange lo hi false

/-- Modelled from the spec: `lshift(count)` (§4.5) — shift every word left
by `count` bits, propagating carries into the next-higher word, growing the
word list as needed; vacated low positions become 0; tail unchanged;
canonicalize. -/
def lshift (a : BitSet) (c : Nat) : BitSet :=
  let n := a.words.length + (c + W - 1) / W + 1
  canonicalize ⟨(List.range n).map fun k =>
    wordFromBits fun j =>
      if k * W + j < c then false else logicalBit a (k * W + j - c), a.tail⟩

/-- Modelled from the spec: `rshift(count)` (§4.5) — shift every word right
by `count` bits, pulling carry bits from the next-higher word or from the
tail pattern once words run out; tail unchanged; canonicalize. -/
def rshift (a : BitSet) (c : Nat) : BitSet :=
  canonicalize ⟨(List.range a.words.length).map fun k =>
    wordFromBits fun j => logicalBit a (k * W + j + c), a.tail⟩

/-- Modelled from the spec: the in-range part of `slice(from, to)` (§4.4) —
bits of `[from, to)` re-indexed to start at 0, tail forced to ZERO. -/
def sliceCore (a : BitSet) (lo hi : Nat) : BitSet :=
  canonicalize ⟨(List.range ((hi - lo + W - 1) / W)).map fun k =>
    wordFromBits fun j =>
      if k * W + j < hi - lo then logicalBit a (lo + (k * W + j)) else false, false⟩

/-- Modelled from the spec: `slice(from, to)` (§4.4) — `to` omitted
defaults to the explicit bit length; `from > to` is an `IndexError`. -/
def slice (a : BitSet) (lo : Nat) (hi : Option Nat) : Except BError BitSet :=
  let t := hi.getD (a.words.length * W)
  if lo > t then .error .IndexError else .ok (a.sliceCore lo t)

end BitSet

/-- Number of set bits in the `W` low bits of a word. -/
def popcount (w : Nat) : Nat := ((List.range W).filter fun j => w.testBit j).length

/-- Modelled from the spec: `cardinality()` (§3, §6) — defined only for
tail ZERO (sum of per-word popcounts); for tail ONE it is unbounded and
signals `UndefinedForIndefiniteSet`. -/
def cardinality (a : BitSet) : Except BError Nat :=
  if a.tail then .error .UndefinedForIndefiniteSet
  else .ok ((a.words.map popcount).sum)

/-- Little-endian digits of `n` in base `b` (empty for `n = 0`; guarded
against degenerate bases). -/
def digitsLE (b n : Nat) : List Nat :=
  if h : n = 0 ∨ b < 2 then [] else n % b :: digitsLE b (n / b)
termination_by n
decreasing_by
  exact Nat.div_lt_self (Nat.pos_of_ne_zero (by omega)) (by omega)

/-- Value of a little-endian digit list in base `b`. -/
def valLE (b : Nat) (ds : List Nat) : Nat :=
  ds.foldr (fun d acc => b * acc + d) 0

/-- The words of the number `n` (base `2^W` digits, least significant
first): canonical for tail ZERO by construction. -/
def wordsOfNat (n : Nat) : List Nat := digitsLE (2 ^ W) n

/-- The numeric value of a finite bitset's explicit words. -/
def toNat (a : BitSet) : Nat := valLE (2 ^ W) a.words

/-- Digit character for a value `0..15` (lower-case hex alphabet),
computed from the character code. -/
def digitChar (v : Nat) : Char :=
  if v < 10 then Char.ofNat (48 + v) else Char.ofNat (87 + v)

/-- Value of a digit character (decimal or lower-case hex), `none` when
the character is not a digit, computed from the character code. -/
def digitVal (c : Char) : Option Nat :=
  if 48 ≤ c.toNat ∧ c.toNat ≤ 57 then some (c.toNat - 48)
  else if 97 ≤ c.toNat ∧ c.toNat ≤ 102 then some (c.toNat - 87)
  else none

/-- Is `c` a digit admissible in base `b`? -/
def isDigitFor (b : Nat) (c : Char) : Bool :=
  match digitVal c with
  | some v => v < b
  | none => false

/-- Parse a big-endian digit string to its value. -/
def parseVal (b : Nat) (cs : List Char) : Nat :=
  cs.foldl (fun acc c => b * acc + (digitVal c).getD 0) 0

/-- Render `n` as big-endian digits in base `b` (`"0"` for zero). -/
def render (b n : Nat) : List Char :=
  if n = 0 then ['0'] else (digitsLE b n).reverse.map digitChar

/-- Strip an optional marker (`0b` / `0x`) from the start of the input. -/
def dropMarker (m cs : List Char) : List Char :=
  if cs.take m.length = m then cs.drop m.length else cs

/-- Modelled from the spec: the base-string part of the Codec (§4.6) —
characters must all be digits of the base (else `ParseError`; empty input
is also malformed); the digits' value is chunked into words, tail ZERO. -/
def fromBaseChars (b : Nat) (cs : List Char) : Except BError BitSet :=
  if cs ≠ [] ∧ cs.all (isDigitFor b) then .ok ⟨wordsOfNat (parseVal b cs), false⟩
  else .error .ParseError

/-- Modelled from the spec: `fromBinaryString` (§4.6, §6) — optional `0b`
marker, characters strictly `0`/`1`. -/
def fromBinaryString (s : String) : Except BError BitSet :=
  fromBaseChars 2 (dropMarker ['0', 'b'] s.data)

/-- Modelled from the spec: `fromHexString` (§4.6, §6) — optional `0x`
marker, hexadecimal digits. -/
def fromHexString (s : String) : Except BError BitSet :=
  fromBaseChars 16 (dropMarker ['0', 'x'] s.data)

/-- Modelled from the spec: `toString(base)` (§4.6) — renders the canonical
bits in the requested base; the indefinite (tail ONE) rendering is not
pinned down by the spec, marked here with a `...` prelude. -/
def bsToString (a : BitSet) (base : Nat) : String :=
  ⟨(if a.tail then ['.', '.', '.'] else []) ++ render base (toNat a)⟩

/-- Modelled from the spec: the closed set of constructor input shapes
(§6, §9) — binary/hex string, non-negative integer, array of set-bit
indices, byte sequence, or another bit-vector. -/
inductive Input
  | str (s : String)
  | num (n : Nat)
  | indices (l : List Nat)
  | bytes (l : List Nat)
  | bitset (b : BitSet)

/-- Value of a big-endian byte sequence. -/
def bytesVal (l : List Nat) : Nat := l.foldl (fun acc byte => 256 * acc + byte) 0

/-- Modelled from the spec: construction (§4.6, §6) — dispatch once on the
input shape; the d.ts declares the single `input` parameter optional, and
an omitted input yields the canonical empty set. -/
def construct : Option Input → Except BError BitSet
  | none => .ok empty
  | some (.str s) =>
      if s.data.take 2 = ['0', 'x'] then fromHexString s else fromBinaryString s
  | some (.num n) => .ok ⟨wordsOfNat n, false⟩
  | some (.indices l) => .ok (l.foldl (fun a i => a.set i true) empty)
  | some (.bytes l) =>
      if l.all (· < 256) then .ok ⟨wordsOfNat (bytesVal l), false⟩
      else .error .ParseError
  | some (.bitset b) => .ok ⟨b.words, b.tail⟩

/-- The public methods of the `BitSet` class declared in `src/bitset.d.ts`. -/
inductive Method
  | and | or | andNot | not | xor | equals | clone | isEmpty | toString
  | toArray | cardinality | msb | lsb | ntz | get | slice | iterator
  | set | lshift | rshift | setRange | clear | flip
deriving DecidableEq, Repr, Fintype

/-- Declared return types in `src/bitset.d.ts`. -/
inductive RetTy
  | bitset | boolean | str | arr | num | void | iter
deriving DecidableEq, Repr

/-- The declared return type of each `BitSet` class method, transcribed
from `src/bitset.d.ts` (lines 207–510). -/
def declaredReturn : Method → RetTy
  | .and => .bitset
  | .or => .bitset
  | .andNot => .bitset
  | .not => .bitset
  | .xor => .bitset
  | .equals => .boolean
  | .clone => .bitset
  | .isEmpty => .boolean
  | .toString => .str
  | .toArray => .arr
  | .cardinality => .num
  | .msb => .num
  | .lsb => .num
  | .ntz => .num
  | .get => .num
  | .slice => .bitset
  | .iterator => .iter
  | .set => .bitset
  | .lshift => .bitset
  | .rshift => .bitset
  | .setRange => .bitset
  | .clear => .void
  | .flip => .bitset

/-- The members of the `ReadOnlyBitSet` interface, transcribed from
`src/bitset.d.ts` (lines 1–204). -/
def readOnlyMembers : List Method :=
  [.and, .or, .andNot, .not, .xor, .equals, .clone, .isEmpty, .toString,
   .toArray, .cardinality, .msb, .lsb, .ntz, .get, .slice, .iterator]

/-- The mutating operation family (§3 lifecycle). -/
def mutatingMembers : List Method :=
  [.set, .setRange, .clear, .flip, .lshift, .rshift]

/-- The value-returning operation family (§3 lifecycle). -/
inductive VOp
  | vand | vor | vxor | vandNot | vnot | vclone | vslice (lo hi : Nat)

/-- Apply a value-returning operation to its operand values. -/
def applyV (op : VOp) (x y : BitSet) : BitSet :=
  match op with
  | .vand => x.and y
  | .vor => x.or y
  | .vxor => x.xor y
  | .vandNot => x.andNot y
  | .vnot => x.not
  | .vclone => x.clone
  | .vslice lo hi => x.sliceCore lo hi

/-- Modelled from the spec: the copy-on-construct storage model (§9) — a
store of word-storage cells, one per live BitSet; a value-returning
operation reads its operand cells and appends a freshly allocated result
cell, never writing to an existing cell. -/
def runV (op : VOp) (h : List BitSet) (i j : Nat) : List BitSet × Nat :=
  (h ++ [applyV op (h.getD i empty) (h.getD j empty)], h.length)

/-- Modelled from the spec: `get(i)` (§4.4, §3) — read the containing word
(or the tail pattern), shift the targeted bit down and mask the low bit. -/
def get (a : BitSet) (i : Nat) : Nat := ((wordOrTail a (i / W)) >>> (i % W)) &&& 1

theorem trimTail_head?_ne (t : Nat) (l : List Nat) :
    (trimTail t l).head? ≠ some t := by
  induction l with
  | nil => simp [trimTail]
  | cons w ws ih =>
    by_cases h : w = t
    · simpa [trimTail, h] using ih
    · simp [trimTail, h]

theorem canonicalize_canonical (a : BitSet) : Canonical (canonicalize a) := by
  have h := trimTail_head?_ne (tailWord a.tail) a.words.reverse
  simpa [Canonical, canonicalize, canonicalizeWords, List.getLast?_reverse] using h

theorem trimTail_eats (t : Nat) (l : List Nat) :
    ∃ m, l = List.replicate m t ++ trimTail t l := by
  induction l with
  | nil => exact ⟨0, rfl⟩
  | cons w ws ih =>
    by_cases h : w = t
    · obtain ⟨m, hm⟩ := ih
      exact ⟨m + 1, by simp [trimTail, h, List.replicate_succ]; exact hm⟩
    · exact ⟨0, by simp [trimTail, h]⟩

theorem canonicalizeWords_spec (t : Nat) (ws : List Nat) :
    ∃ m, ws = canonicalizeWords t ws ++ List.replicate m t := by
  obtain ⟨m, hm⟩ := trimTail_eats t ws.reverse
  refine ⟨m, ?_⟩
  have : ws.reverse.reverse = (List.replicate m t ++ trimTail t ws.reverse).reverse := by
    rw [← hm]
  simpa [canonicalizeWords, List.reverse_append, List.reverse_replicate] using this

theorem getD_append_replicate (xs : List Nat) (m k : Nat) (t : Nat) :
    (xs ++ List.replicate m t).getD k t = xs.getD k t := by
  simp only [List.getD_eq_getElem?_getD, List.getElem?_append]
  rcases lt_or_ge k xs.length with h | h
  · simp [h]
  · simp only [Nat.not_lt.mpr h, if_false, List.getElem?_replicate,
      List.getElem?_eq_none h, Option.getD_none]
    by_cases h2 : k - xs.length < m <;> simp [h2]

theorem wordOrTail_canonicalize (a : BitSet) (k : Nat) :
    wordOrTail (canonicalize a) k = wordOrTail a k := by
  obtain ⟨m, hm⟩ := canonicalizeWords_spec (tailWord a.tail) a.words
  unfold wordOrTail canonicalize
  conv_rhs => rw [hm]
  simp only []
  exact (getD_append_replicate _ m k _).symm

theorem logicalBit_canonicalize (a : BitSet) (i : Nat) :
    logicalBit (canonicalize a) i = logicalBit a i := by
  simp [logicalBit, wordOrTail_canonicalize]

theorem bitsToNat_lt (f : Nat → Bool) (n : Nat) : bitsToNat f n < 2 ^ n := by
  induction n generalizing f with
  | zero => simp [bitsToNat]
  | succ n ih =>
    have h := ih (fun j => f (j + 1))
    by_cases h0 : f 0 <;> simp [bitsToNat, h0, pow_succ] <;> omega

theorem testBit_bitsToNat (f : Nat → Bool) (n j : Nat) :
    (bitsToNat f n).testBit j = if j < n then f j else false := by
  induction n generalizing f j with
  | zero => simp [bitsToNat]
  | succ n ih =>
    cases j with
    | zero =>
      by_cases h0 : f 0 <;>
        simp [bitsToNat, h0, Nat.testBit_zero, Nat.add_mul_mod_self_left]
    | succ j =>
      have hdiv : ((if f 0 then 1 else 0) + 2 * bitsToNat (fun j => f (j + 1)) n) / 2
          = bitsToNat (fun j => f (j + 1)) n := by
        by_cases h0 : f 0 <;> simp [h0] <;> omega
      have := ih (fun j => f (j + 1)) j
      simp only [bitsToNat, Nat.testBit_succ, hdiv, this]
      simp [Nat.succ_lt_succ_iff]

theorem testBit_wordFromBits (f : Nat → Bool) (j : Nat) (hj : j < W) :
    (wordFromBits f).testBit j = f j := by
  simp [wordFromBits, testBit_bitsToNat, hj]

theorem wordFromBits_lt (f : Nat → Bool) : wordFromBits f < 2 ^ W :=
  bitsToNat_lt f W

theorem equals_refl (a : BitSet) : a.equals a = true := by
  simp [BitSet.equals]

theorem digitsLE_zero (b : Nat) : digitsLE b 0 = [] := by
  rw [digitsLE]; simp

theorem digitsLE_pos (b n : Nat) (hb : 2 ≤ b) (hn : n ≠ 0) :
    digitsLE b n = n % b :: digitsLE b (n / b) := by
  rw [digitsLE]; simp [hn, Nat.not_lt.mpr hb]

theorem valLE_digitsLE (b : Nat) (hb : 2 ≤ b) (n : Nat) :
    valLE b (digitsLE b n) = n := by
  induction n using Nat.strong_induction_on with
  | _ n ih =>
    rcases eq_or_ne n 0 with rfl | hn
    · simp [digitsLE_zero, valLE]
    · rw [digitsLE_pos b n hb hn]
      have hdiv : n / b < n := Nat.div_lt_self (Nat.pos_of_ne_zero hn) (by omega)
      simp only [valLE, List.foldr_cons]
      have := ih (n / b) hdiv
      simp only [valLE] at this
      rw [this, Nat.div_add_mod]

theorem digitsLE_lt (b n : Nat) (hb : 2 ≤ b) : ∀ d ∈ digitsLE b n, d < b := by
  induction n using Nat.strong_induction_on with
  | _ n ih =>
    rcases eq_or_ne n 0 with rfl | hn
    · simp [digitsLE_zero]
    · rw [digitsLE_pos b n hb hn]
      intro d hd
      rcases List.mem_cons.mp hd with rfl | hd
      · exact Nat.mod_lt _ (by omega)
      · exact ih (n / b) (Nat.div_lt_self (Nat.pos_of_ne_zero hn) (by omega)) d hd

theorem digitsLE_ne_nil (b n : Nat) (hb : 2 ≤ b) (hn : n ≠ 0) :
    digitsLE b n ≠ [] := by
  rw [digitsLE_pos b n hb hn]; simp

theorem digitsLE_getLast?_ne_zero (b n : Nat) (hb : 2 ≤ b) :
    (digitsLE b n).getLast? ≠ some 0 := by
  induction n using Nat.strong_induction_on with
  | _ n ih =>
    rcases eq_or_ne n 0 with rfl | hn
    · simp [digitsLE_zero]
    rcases eq_or_ne (n / b) 0 with hq | hq
    · have hmod : n % b = n := by
        have h := Nat.div_add_mod n b
        rw [hq, Nat.mul_zero, Nat.zero_add] at h
        exact h
      rw [digitsLE_pos b n hb hn, hq, digitsLE_zero]
      simp [hmod, hn]
    · rw [digitsLE_pos b n hb hn]
      have hne := digitsLE_ne_nil b (n / b) hb hq
      cases hd : digitsLE b (n / b) with
      | nil => exact absurd hd hne
      | cons x xs =>
        rw [List.getLast?_cons_cons]
        have h2 := ih (n / b) (Nat.div_lt_self (Nat.pos_of_ne_zero hn) (by omega))
        rwa [hd] at h2

theorem two_le_two_pow_W : 2 ≤ 2 ^ W := by
  have : (2 : Nat) ^ 1 ≤ 2 ^ W := Nat.pow_le_pow_right (by omega) (by simp [W])
  simpa using this

theorem getLast?_cons_ne (w : Nat) (ws : List Nat) (hws : ws ≠ [])
    (hlast : (w :: ws).getLast? ≠ some 0) : ws.getLast? ≠ some 0 := by
  cases ws with
  | nil => exact absurd rfl hws
  | cons x xs => simpa [List.getLast?_cons_cons] using hlast

theorem valLE_ne_zero (B : Nat) (hB : 2 ≤ B) (ws : List Nat) (hne : ws ≠ [])
    (hlast : ws.getLast? ≠ some 0) : valLE B ws ≠ 0 := by
  induction ws with
  | nil => exact absurd rfl hne
  | cons w ws ih =>
    rcases eq_or_ne ws [] with rfl | hws
    · simp only [List.getLast?_singleton, Ne, Option.some.injEq] at hlast
      simp only [valLE, List.foldr_cons, List.foldr_nil, Nat.mul_zero, Nat.zero_add]
      exact hlast
    · have hv := ih hws (getLast?_cons_ne w ws hws hlast)
      simp only [valLE, List.foldr_cons] at hv ⊢
      intro hc
      have hv0 : B * List.foldr (fun d acc => B * acc + d) 0 ws = 0 := by omega
      rcases Nat.mul_eq_zero.mp hv0 with h | h
      · omega
      · exact hv h

theorem digitsLE_valLE (B : Nat) (hB : 2 ≤ B) (ws : List Nat)
    (hlt : ∀ w ∈ ws, w < B) (hlast : ws.getLast? ≠ some 0) :
    digitsLE B (valLE B ws) = ws := by
  induction ws with
  | nil => simp [valLE, digitsLE_zero]
  | cons w ws ih =>
    have hw : w < B := hlt w (by simp)
    have hval : valLE B (w :: ws) = B * valLE B ws + w := by simp [valLE]
    rcases eq_or_ne ws [] with rfl | hws
    · have hw0 : w ≠ 0 := by
        simpa only [List.getLast?_singleton, Ne, Option.some.injEq] using hlast
      rw [hval]
      simp only [valLE, List.foldr_nil, Nat.mul_zero, Nat.zero_add]
      rw [digitsLE_pos B w hB hw0, Nat.mod_eq_of_lt hw, Nat.div_eq_of_lt hw, digitsLE_zero]
    · have hlast' := getLast?_cons_ne w ws hws hlast
      have hvne : valLE B ws ≠ 0 := valLE_ne_zero B hB ws hws hlast'
      have hne : valLE B (w :: ws) ≠ 0 := by
        rw [hval]
        have h1 : 1 ≤ valLE B ws := Nat.pos_of_ne_zero hvne
        have h2 : B * 1 ≤ B * valLE B ws := Nat.mul_le_mul_left B h1
        omega
      rw [digitsLE_pos B _ hB hne, hval]
      have hmod : (B * valLE B ws + w) % B = w := by
        rw [Nat.mul_add_mod, Nat.mod_eq_of_lt hw]
      have hdiv : (B * valLE B ws + w) / B = valLE B ws := by
        rw [Nat.mul_add_div (by omega), Nat.div_eq_of_lt hw, Nat.add_zero]
      rw [hmod, hdiv]
      congr 1
      exact ih (fun x hx => hlt x (by simp [hx])) hlast'

theorem digitVal_digitChar (v : Nat) (hv : v < 16) : digitVal (digitChar v) = some v := by
  interval_cases v <;> rfl

theorem digitChar_ne_zero_char (v : Nat) (h0 : v ≠ 0) (hv : v < 16) : digitChar v ≠ '0' := by
  interval_cases v
  · exact absurd rfl h0
  all_goals decide

theorem foldr_digit_eq (b : Nat) (hb : b ≤ 16) (ds : List Nat) (h : ∀ d ∈ ds, d < b) :
    List.foldr (fun c acc => b * acc + (digitVal c).getD 0) 0 (ds.map digitChar)
      = valLE b ds := by
  induction ds with
  | nil => simp [valLE]
  | cons d ds ih =>
    have hd : d < 16 := lt_of_lt_of_le (h d (by simp)) hb
    simp only [List.map_cons, List.foldr_cons, valLE] at *
    rw [ih (fun x hx => h x (by simp [hx])), digitVal_digitChar d hd]
    rfl

theorem parseVal_render (b : Nat) (hb2 : 2 ≤ b) (hb16 : b ≤ 16) (n : Nat) :
    parseVal b (render b n) = n := by
  rcases eq_or_ne n 0 with rfl | hn
  · simp [render, parseVal, digitVal]
  · rw [render, if_neg hn, parseVal, List.map_reverse, List.foldl_reverse]
    have : (fun (x : Nat) (c : Char) => b * x + (digitVal c).getD 0) = fun x c =>
        (fun c acc => b * acc + (digitVal c).getD 0) c x := rfl
    rw [foldr_digit_eq b hb16 _ (digitsLE_lt b n hb2), valLE_digitsLE b hb2]

theorem render_all_digits (b : Nat) (hb2 : 2 ≤ b) (hb16 : b ≤ 16) (n : Nat) :
    (render b n).all (isDigitFor b) = true := by
  rcases eq_or_ne n 0 with rfl | hn
  · simp [render, isDigitFor, digitVal]
    omega
  · rw [render, if_neg hn]
    simp only [List.all_eq_true, List.mem_map, List.mem_reverse]
    rintro c ⟨d, hd, rfl⟩
    have hdb := digitsLE_lt b n hb2 d hd
    simp [isDigitFor, digitVal_digitChar d (lt_of_lt_of_le hdb hb16), hdb]

theorem render_ne_nil (b n : Nat) (hb2 : 2 ≤ b) : render b n ≠ [] := by
  rcases eq_or_ne n 0 with rfl | hn
  · simp [render]
  · rw [render, if_neg hn]
    simp [digitsLE_ne_nil b n hb2 hn]

theorem dropMarker_render (b : Nat) (hb2 : 2 ≤ b) (hb16 : b ≤ 16) (c2 : Char)
    (n : Nat) : dropMarker ['0', c2] (render b n) = render b n := by
  rcases eq_or_ne n 0 with rfl | hn
  · simp only [render, if_pos rfl]
    rw [dropMarker, if_neg]
    simp
  · rw [render, if_neg hn]
    have hne := digitsLE_ne_nil b n hb2 hn
    have hlast := digitsLE_getLast?_ne_zero b n hb2
    obtain ⟨d, hd⟩ : ∃ d, (digitsLE b n).getLast? = some d := by
      cases h : (digitsLE b n).getLast? with
      | none => exact absurd (List.getLast?_eq_none_iff.mp h) hne
      | some d => exact ⟨d, rfl⟩
    have hd0 : d ≠ 0 := fun h => hlast (h ▸ hd)
    have hdmem : d ∈ digitsLE b n := by
      obtain ⟨hne', heq⟩ := List.mem_getLast?_eq_getLast (Option.mem_def.mpr hd)
      exact heq ▸ List.getLast_mem hne'
    have hdlt : d < 16 := lt_of_lt_of_le (digitsLE_lt b n hb2 d hdmem) hb16
    have hhead : ((digitsLE b n).reverse.map digitChar).head? = some (digitChar d) := by
      rw [List.head?_map, List.head?_reverse, hd]
      rfl
    cases hcs : (digitsLE b n).reverse.map digitChar with
    | nil => simp [hcs] at hhead
    | cons ch t =>
      rw [hcs] at hhead
      simp only [List.head?_cons, Option.some.injEq] at hhead
      rw [dropMarker, if_neg]
      intro hEq
      simp only [List.length_cons, List.length_nil, List.take] at hEq
      have : ch = '0' := by
        cases t <;> simp_all [List.take]
      exact digitChar_ne_zero_char d hd0 hdlt (hhead ▸ this)

theorem wordsOfNat_canonical (n : Nat) : Canonical ⟨wordsOfNat n, false⟩ := by
  have h := digitsLE_getLast?_ne_zero (2 ^ W) n two_le_two_pow_W
  simpa [Canonical, wordsOfNat, tailWord] using h

theorem wordsOfNat_toNat (a : BitSet) (hc : Canonical a) (hv : Valid a)
    (ht : a.tail = false) : wordsOfNat (toNat a) = a.words := by
  apply digitsLE_valLE (2 ^ W) two_le_two_pow_W a.words hv
  simpa [Canonical, ht, tailWord] using hc

theorem fromBase_bsToString (b : Nat) (hb2 : 2 ≤ b) (hb16 : b ≤ 16) (c2 : Char) (a : BitSet)
    (hc : Canonical a) (hv : Valid a) (ht : a.tail = false) :
    fromBaseChars b (dropMarker ['0', c2] (bsToString a b).data) = .ok a := by
  have hdata : (bsToString a b).data = render b (toNat a) := by simp [bsToString, ht]
  rw [hdata, dropMarker_render b hb2 hb16 c2, fromBaseChars,
    if_pos ⟨render_ne_nil b _ hb2, render_all_digits b hb2 hb16 _⟩,
    parseVal_render b hb2 hb16, wordsOfNat_toNat a hc hv ht]
  cases a
  simp_all

theorem W_pos : 0 < W := by decide

theorem and_one_eq_ite_testBit (w j : Nat) :
    (w >>> j) &&& 1 = if w.testBit j then 1 else 0 := by
  rw [Nat.and_one_is_mod, Nat.testBit_to_div_mod, Nat.shiftRight_eq_div_pow]
  rcases Nat.mod_two_eq_zero_or_one (w / 2 ^ j) with h | h <;> simp [h]

theorem testBit_tailWord (t : Bool) (j : Nat) (hj : j < W) :
    (tailWord t).testBit j = t := by
  cases t
  · simp [tailWord]
  · simp only [tailWord, if_pos, allOnes]
    rw [Nat.testBit_two_pow_sub_one]
    simp [hj]

theorem wordOrTail_ge (a : BitSet) (k : Nat) (hk : a.words.length ≤ k) :
    wordOrTail a k = tailWord a.tail := by
  simp [wordOrTail, List.getD_eq_getElem?_getD, List.getElem?_eq_none hk]

theorem wordOrTail_lt (a : BitSet) (k : Nat) (hk : k < a.words.length) (d : Nat) :
    wordOrTail a k = a.words.getD k d := by
  rw [wordOrTail, List.getD_eq_getElem?_getD, List.getD_eq_getElem?_getD,
    List.getElem?_eq_getElem hk]
  simp

theorem wordOrTail_mk_map (g : Nat → Nat) (n : Nat) (t : Bool) (k : Nat) :
    wordOrTail ⟨(List.range n).map g, t⟩ k = if k < n then g k else tailWord t := by
  by_cases hk : k < n
  · rw [if_pos hk]
    have hk' : k < ((List.range n).map g).length := by simpa using hk
    rw [wordOrTail_lt ⟨(List.range n).map g, t⟩ k hk' 0]
    simp [List.getD_eq_getElem?_getD, List.getElem?_range, hk]
  · rw [if_neg hk]
    exact wordOrTail_ge _ k (by simpa using Nat.not_lt.mp hk)

theorem getD_append_lt (l l' : List BitSet) (k : Nat) (hk : k < l.length) (d : BitSet) :
    (l ++ l').getD k d = l.getD k d := by
  simp [List.getD_eq_getElem?_getD, List.getElem?_append, hk]

theorem getD_append_len (l : List BitSet) (x d : BitSet) :
    (l ++ [x]).getD l.length d = x := by
  simp [List.getD_eq_getElem?_getD, List.getElem?_append]

theorem binop_comm (f : Nat → Nat → Nat) (ft : Bool → Bool → Bool)
    (hf : ∀ x y, f x y = f y x) (hft : ∀ x y, ft x y = ft y x) (a b : BitSet) :
    binop f ft a b = binop f ft b a := by
  unfold binop extLen
  have hfn : (fun k => f (wordOrTail a k) (wordOrTail b k))
      = fun k => f (wordOrTail b k) (wordOrTail a k) := funext fun k => hf _ _
  rw [hfn, Nat.max_comm, hft]

theorem countP_testBit_chunks (ws : List Nat) (d : Nat) :
    (List.range (ws.length * W)).countP (fun i => (ws.getD (i / W) d).testBit (i % W))
      = (ws.map popcount).sum := by
  induction ws with
  | nil => simp
  | cons w ws ih =>
    have hlen : (w :: ws).length * W = W + ws.length * W := by
      simp [List.length_cons]
      ring
    rw [hlen, List.range_add, List.countP_append, List.countP_map]
    have h1 : (List.range W).countP (fun i => ((w :: ws).getD (i / W) d).testBit (i % W))
        = popcount w := by
      rw [popcount, ← List.countP_eq_length_filter]
      apply List.countP_congr
      intro i hi
      have hiW : i < W := List.mem_range.mp hi
      simp [Nat.div_eq_of_lt hiW, Nat.mod_eq_of_lt hiW]
    have h2 : (List.range (ws.length * W)).countP
        ((fun i => ((w :: ws).getD (i / W) d).testBit (i % W)) ∘ (W + ·))
        = (List.range (ws.length * W)).countP (fun i => (ws.getD (i / W) d).testBit (i % W)) := by
      apply List.countP_congr
      intro i _
      have hdiv : (W + i) / W = i / W + 1 := by
        rw [Nat.add_comm, Nat.add_div_right i W_pos]
      have hmod : (W + i) % W = i % W := Nat.add_mod_left W i
      simp [Function.comp, hdiv, hmod]
    rw [h1, h2, ih]
    simp

/-- C1: every operation maintains the canonical-form invariant — for
canonical operands, each public operation's result has no highest-index
word equal to the all-`tail` pattern, and the canonical empty set is the
empty word sequence with tail ZERO. -/
theorem canonical_form_invariant (a b : BitSet) (ha : Canonical a)
    (i lo hi c : Nat) (v : Bool) :
    Canonical (a.and b) ∧ Canonical (a.or b) ∧ Canonical (a.xor b) ∧
    Canonical (a.andNot b) ∧ Canonical a.not ∧ Canonical a.clone ∧
    Canonical (a.sliceCore lo hi) ∧ Canonical (a.set i v) ∧
    Canonical (a.flipBit i) ∧ Canonical a.flipAll ∧
    Canonical (a.setRange lo hi v) ∧ Canonical (a.flipRange lo hi) ∧
    Canonical (a.clearBit i) ∧ Canonical (a.clearRange lo hi) ∧
    Canonical a.clearAll ∧ Canonical (a.lshift c) ∧ Canonical (a.rshift c) ∧
    empty.words = [] ∧ empty.tail = false ∧ Canonical empty := by
  refine ⟨canonicalize_canonical _, canonicalize_canonical _, canonicalize_canonical _,
    canonicalize_canonical _, canonicalize_canonical _, ha,
    canonicalize_canonical _, canonicalize_canonical _, canonicalize_canonical _,
    canonicalize_canonical _, canonicalize_canonical _, canonicalize_canonical _,
    canonicalize_canonical _, canonicalize_canonical _, ?_,
    canonicalize_canonical _, canonicalize_canonical _, rfl, rfl, ?_⟩ <;>
    simp [Canonical, BitSet.clearAll, empty]

/-- C1 witness: the invariant applied to concrete canonical inputs. -/
theorem canonical_form_invariant_witness :
    Canonical ⟨[3], false⟩ ∧ Canonical (BitSet.and ⟨[3], false⟩ ⟨[5], true⟩) :=
  ⟨by decide, (canonical_form_invariant ⟨[3], false⟩ ⟨[5], true⟩ (by decide) 1 2 70 9 true).1⟩

/-- C2: `and`, `or` and `xor` are commutative up to `equals`, for all
BitSets including indefinite (tail ONE) ones. -/
theorem algebra_commutative (a b : BitSet) :
    (a.and b).equals (b.and a) = true ∧
    (a.or b).equals (b.or a) = true ∧
    (a.xor b).equals (b.xor a) = true := by
  have h1 : a.and b = b.and a := binop_comm _ _ Nat.land_comm Bool.and_comm a b
  have h2 : a.or b = b.or a := binop_comm _ _ Nat.lor_comm Bool.or_comm a b
  have h3 : a.xor b = b.xor a := binop_comm _ _ Nat.xor_comm Bool.xor_comm a b
  exact ⟨h1 ▸ equals_refl _, h2 ▸ equals_refl _, h3 ▸ equals_refl _⟩

/-- C3: `cardinality` signals `UndefinedForIndefiniteSet` exactly when
tail=ONE, and for tail=ZERO returns the (finite, non-negative) count of
set bits. -/
theorem cardinality_spec (a : BitSet) :
    (a.tail = true → cardinality a = .error .UndefinedForIndefiniteSet) ∧
    (a.tail = false → cardinality a =
      .ok ((List.range (a.words.length * W)).countP fun i => logicalBit a i)) := by
  constructor
  · intro ht
    simp [cardinality, ht]
  · intro ht
    have h := countP_testBit_chunks a.words (tailWord a.tail)
    simp only [cardinality, ht, Bool.false_eq_true, if_false]
    rw [← h]
    rfl

/-- C3 witness: the two branches at concrete sets. -/
theorem cardinality_spec_witness :
    cardinality ⟨[3], true⟩ = .error .UndefinedForIndefiniteSet ∧
    cardinality ⟨[3], false⟩ =
      .ok ((List.range ([(3 : Nat)].length * W)).countP fun i => logicalBit ⟨[3], false⟩ i) :=
  ⟨(cardinality_spec ⟨[3], true⟩).1 rfl, (cardinality_spec ⟨[3], false⟩).2 rfl⟩

/-- C4: divergence record — `src/bitset.d.ts` declares `clear` to return
`void`, while every other mutating operation (`set`, `flip`, `setRange`,
`lshift`, `rshift`) is declared to return the `BitSet` receiver for
chaining; the spec (§6, `clear(from?, to?) → self`) shows the `void`
declaration to be the slip. -/
theorem clear_declared_return_void :
    declaredReturn Method.clear = RetTy.void ∧
    declaredReturn Method.set = RetTy.bitset ∧
    declaredReturn Method.flip = RetTy.bitset ∧
    declaredReturn Method.setRange = RetTy.bitset ∧
    declaredReturn Method.lshift = RetTy.bitset ∧
    declaredReturn Method.rshift = RetTy.bitset ∧
    RetTy.void ≠ RetTy.bitset := by decide

/-- C5: `get(i)` is total for every `i ≥ 0` and returns exactly the logical
bit of §3 — bit `i mod W` of `words[i div W]` when `i` is within the
explicit words, the tail value otherwise — and is always 0 or 1, never any
other value. -/
theorem get_spec (a : BitSet) (i : Nat) :
    (i < a.words.length * W →
      get a i = if (a.words.getD (i / W) 0).testBit (i % W) then 1 else 0) ∧
    (a.words.length * W ≤ i → get a i = if a.tail then 1 else 0) ∧
    (get a i = 0 ∨ get a i = 1) := by
  refine ⟨?_, ?_, ?_⟩
  · intro hi
    have hk : i / W < a.words.length := (Nat.div_lt_iff_lt_mul W_pos).mpr hi
    rw [get, wordOrTail_lt a _ hk 0, and_one_eq_ite_testBit]
  · intro hi
    have hk : a.words.length ≤ i / W := (Nat.le_div_iff_mul_le W_pos).mpr hi
    rw [get, wordOrTail_ge a _ hk, and_one_eq_ite_testBit,
      testBit_tailWord a.tail _ (Nat.mod_lt _ W_pos)]
  · rw [get, and_one_eq_ite_testBit]
    by_cases h : (wordOrTail a (i / W)).testBit (i % W) <;> simp [h]

/-- C5 witness: both branches of the read at concrete inputs. -/
theorem get_spec_witness :
    get ⟨[5], false⟩ 2 =
      (if (([5] : List Nat).getD (2 / W) 0).testBit (2 % W) then 1 else 0) ∧
    get ⟨[5], false⟩ 40 = (if (false : Bool) then 1 else 0) :=
  ⟨(get_spec ⟨[5], false⟩ 2).1 (by decide), (get_spec ⟨[5], false⟩ 40).2.1 (by decide)⟩

/-- C6: each value-returning operation (and, or, xor, andNot, not, clone,
slice) allocates a fresh storage cell — its result index is distinct from
both operands' — leaves every pre-existing cell (in particular both
operands' contents) unchanged, and the fresh cell holds the operation's
value. -/
theorem value_ops_fresh (op : VOp) (h : List BitSet) (i j : Nat)
    (hi : i < h.length) (hj : j < h.length) :
    (runV op h i j).2 ≠ i ∧ (runV op h i j).2 ≠ j ∧
    (∀ k, k < h.length → (runV op h i j).1.getD k empty = h.getD k empty) ∧
    (runV op h i j).1.getD (runV op h i j).2 empty
      = applyV op (h.getD i empty) (h.getD j empty) := by
  refine ⟨?_, ?_, ?_, ?_⟩
  · show h.length ≠ i
    omega
  · show h.length ≠ j
    omega
  · intro k hk
    exact getD_append_lt h _ k hk empty
  · exact getD_append_len h _ empty

/-- C6 witness: the freshness guarantee applied to a concrete store. -/
theorem value_ops_fresh_witness :
    (0 : Nat) < [empty].length ∧ (runV VOp.vand [empty] 0 0).2 ≠ 0 :=
  ⟨by decide, (value_ops_fresh VOp.vand [empty] 0 0 (by decide) (by decide)).1⟩

/-- C7: for every canonical finite (tail ZERO) BitSet, parsing its own
serialization round-trips to an `equals`-equal set, in base 2 and base 16. -/
theorem roundtrip_serialization (a : BitSet) (hc : Canonical a) (hv : Valid a)
    (ht : a.tail = false) :
    (fromBinaryString (bsToString a 2)).map (fun r => r.equals a) = .ok true ∧
    (fromHexString (bsToString a 16)).map (fun r => r.equals a) = .ok true := by
  constructor
  · rw [fromBinaryString, fromBase_bsToString 2 (by omega) (by omega) 'b' a hc hv ht]
    simp [Except.map, equals_refl]
  · rw [fromHexString, fromBase_bsToString 16 (by omega) (by omega) 'x' a hc hv ht]
    simp [Except.map, equals_refl]

/-- C7 witness: the round-trip at a concrete canonical finite set. -/
theorem roundtrip_serialization_witness :
    Canonical ⟨[5], false⟩ ∧ Valid ⟨[5], false⟩ ∧
    (fromBinaryString (bsToString ⟨[5], false⟩ 2)).map
      (fun r => r.equals ⟨[5], false⟩) = .ok true :=
  ⟨by decide, by decide,
    (roundtrip_serialization ⟨[5], false⟩ (by decide) (by decide) rfl).1⟩

theorem logicalBit_mk_map_wordFromBits (F : Nat → Nat → Bool) (n : Nat) (t : Bool) (i : Nat) :
    logicalBit ⟨(List.range n).map (fun k => wordFromBits (F k)), t⟩ i
      = if i / W < n then F (i / W) (i % W) else t := by
  unfold logicalBit
  rw [wordOrTail_mk_map]
  by_cases hk : i / W < n
  · rw [if_pos hk, if_pos hk, testBit_wordFromBits _ _ (Nat.mod_lt _ W_pos)]
  · rw [if_neg hk, if_neg hk, testBit_tailWord _ _ (Nat.mod_lt _ W_pos)]

/-- C8: `rshift(count)` keeps the tail unchanged (never turning an
indefinite set finite), canonicalizes its result, and its logical content
is the `count`-bit right shift in which bits entering from above the last
explicit word are the tail value (carried through the word chain), never
forced to 0. -/
theorem rshift_spec (a : BitSet) (c : Nat) :
    (a.rshift c).tail = a.tail ∧ Canonical (a.rshift c) ∧
    ∀ i, logicalBit (a.rshift c) i = logicalBit a (i + c) := by
  refine ⟨rfl, canonicalize_canonical _, fun i => ?_⟩
  rw [BitSet.rshift, logicalBit_canonicalize,
    logicalBit_mk_map_wordFromBits (fun k j => logicalBit a (k * W + j + c))]
  by_cases hk : i / W < a.words.length
  · rw [if_pos hk]
    have h2 : i / W * W + i % W = i := by
      rw [Nat.mul_comm]
      exact Nat.div_add_mod i W
    have h3 : i / W * W + i % W + c = i + c := by rw [h2]
    rw [h3]
  · rw [if_neg hk]
    have hlen : a.words.length ≤ (i + c) / W :=
      le_trans (Nat.not_lt.mp hk) (Nat.div_le_div_right (Nat.le_add_right i c))
    unfold logicalBit
    rw [wordOrTail_ge a _ hlen, testBit_tailWord _ _ (Nat.mod_lt _ W_pos)]

/-- C9 amended: construction takes at most one input argument (the d.ts
declares `input?` optional, and an omitted input yields the canonical empty
set); a present input is one of the closed set of shapes — string, number,
index array, byte sequence, bit-vector (deep-copied) — and malformed
digits or byte values are a reported `ParseError`. -/
theorem construct_shapes :
    construct none = .ok empty ∧
    (∀ b : BitSet, construct (some (Input.bitset b)) = .ok ⟨b.words, b.tail⟩) ∧
    (∀ n : Nat, ∃ r, construct (some (Input.num n)) = .ok r ∧ r.tail = false ∧ Canonical r) ∧
    (∀ l : List Nat, ∃ r, construct (some (Input.indices l)) = .ok r) ∧
    (∀ l : List Nat, (∀ x ∈ l, x < 256) →
      ∃ r, construct (some (Input.bytes l)) = .ok r ∧ r.tail = false) ∧
    (∀ (l : List Nat) (x : Nat), x ∈ l → 256 ≤ x →
      construct (some (Input.bytes l)) = .error .ParseError) ∧
    (∀ s : String, s.data.take 2 ≠ ['0', 'x'] →
      ¬(dropMarker ['0', 'b'] s.data ≠ [] ∧
        (dropMarker ['0', 'b'] s.data).all (isDigitFor 2) = true) →
      construct (some (Input.str s)) = .error .ParseError) := by
  refine ⟨rfl, fun b => rfl, fun n => ⟨⟨wordsOfNat n, false⟩, rfl, rfl, wordsOfNat_canonical n⟩,
    fun l => ⟨_, rfl⟩, ?_, ?_, ?_⟩
  · intro l hl
    refine ⟨⟨wordsOfNat (bytesVal l), false⟩, ?_, rfl⟩
    have : l.all (· < 256) = true := by
      simp only [List.all_eq_true, decide_eq_true_eq]
      exact hl
    simp [construct, this]
  · intro l x hx hge
    have : l.all (· < 256) = false := by
      simp only [List.all_eq_false]
      exact ⟨x, hx, by simp [hge]⟩
    simp [construct, this]
  · intro s hs hbad
    simp only [construct]
    rw [if_neg hs]
    unfold fromBinaryString fromBaseChars
    rw [if_neg hbad]

/-- C9 counterexample: the claim says construction requires exactly one
input argument, but the declared constructor takes an optional `input?` and
constructing with no argument succeeds (yielding the canonical empty set)
rather than being rejected. -/
theorem construct_no_argument : construct none = .ok ⟨[], false⟩ := rfl

/-- C9 witness: a malformed digit string is a reported parse error. -/
theorem construct_shapes_witness :
    construct (some (Input.str "210")) = .error .ParseError := by
  have h := construct_shapes
  exact h.2.2.2.2.2.2 "210" (by decide) (by decide)

/-- C10: the `ReadOnlyBitSet` interface exposes exactly the non-mutating
operations; none of the mutating operations (set, setRange, clear, flip,
lshift, rshift) is a member, every class method is either a read-only
member or a mutator, and every read-only member produces a value (none is
declared void). -/
theorem readonly_interface_non_mutating :
    (∀ m ∈ mutatingMembers, m ∉ readOnlyMembers) ∧
    (∀ m : Method, m ∈ readOnlyMembers ∨ m ∈ mutatingMembers) ∧
    (∀ m ∈ readOnlyMembers, declaredReturn m ≠ RetTy.void) := by decide

end BitSetModel
